import Mathlib

/-!
Verification development for the PDF word-frequency pipeline in
`source/modules/WordFilter.py`.

The relevant code is shallowly embedded: pure text-processing helpers become
Lean functions on `String`/`List Char`; the SQLite database becomes an explicit
state record; exceptions become `Option`/`Except`.  Python's `str.isspace`,
`str.isalpha`, `str.lower` and the regex `[^a-zA-Z\s]` are modelled at the
ASCII level (all inputs exercised by the specification are ASCII).
-/

/-- ASCII model of Python `str.isspace` for a single character
(space, tab, newline, carriage return, vertical tab, form feed). -/
def pyIsSpace (c : Char) : Bool :=
  c = ' ' || c = '\t' || c = '\n' || c = '\x0d' || c = '\x0b' || c = '\x0c'

/-- ASCII model of Python `str.isalpha` for a single character. -/
def pyIsAlpha (c : Char) : Bool :=
  ('a' ≤ c && c ≤ 'z') || ('A' ≤ c && c ≤ 'Z')

/-- ASCII model of Python `str.lower` on one character. -/
def pyLower (c : Char) : Char :=
  if 'A' ≤ c && c ≤ 'Z' then Char.ofNat (c.toNat + 32) else c

/-- Python `s.split()` (split on runs of whitespace, discarding empty pieces),
on a list of characters; `acc` holds the characters of the current word in
reverse. -/
def pySplitAux (acc : List Char) : List Char → List String
  | [] => if acc = [] then [] else [String.mk acc.reverse]
  | c :: cs =>
    if pyIsSpace c then
      if acc = [] then pySplitAux [] cs
      else String.mk acc.reverse :: pySplitAux [] cs
    else
      pySplitAux (c :: acc) cs

/-- Python `s.split()` on a string. -/
def pySplit (s : String) : List String :=
  pySplitAux [] s.data

/-- Python `s.split()[-1]` for a string whose last character is not
whitespace: the trailing maximal run of non-whitespace characters. -/
def pyLastToken (s : String) : String :=
  String.mk (s.data.reverse.takeWhile (fun c => !pyIsSpace c)).reverse

/-- Python `s.rsplit(' ', 1)[0]`: everything before the last space character,
or `s` unchanged when `s` contains no space. -/
def pyRsplitSpaceFirst (s : String) : String :=
  if s.data.contains ' ' then
    String.mk ((s.data.reverse.dropWhile (fun c => c != ' ')).tail).reverse
  else s

/-- `merge_split_words` from `WordFilter.py` (lines 179-192), with the carried
buffer explicit.  Evaluating `chunk[-1]` on an empty chunk raises in Python;
that failure is the `none` result. -/
def mergeAux (buf : String) : List String → Option (List String)
  | [] => some (if buf = "" then [] else [buf])
  | c :: rest =>
    let chunk := buf ++ c
    match chunk.data.getLast? with
    | none => none
    | some last =>
      if pyIsSpace last || pyIsAlpha last then
        (mergeAux "" rest).map (chunk :: ·)
      else
        (mergeAux (pyLastToken chunk) rest).map (pyRsplitSpaceFirst chunk :: ·)

/-- `merge_split_words(chunks)`: starts with an empty buffer. -/
def merge_split_words (chunks : List String) : Option (List String) :=
  mergeAux "" chunks

/-- The buffer value after `merge_split_words` has processed a list of chunks
starting from buffer `buf` (`none` when processing raised). -/
def bufAfter (buf : String) : List String → Option String
  | [] => some buf
  | c :: rest =>
    let chunk := buf ++ c
    match chunk.data.getLast? with
    | none => none
    | some last =>
      if pyIsSpace last || pyIsAlpha last then bufAfter "" rest
      else bufAfter (pyLastToken chunk) rest

/-- `clean_text` from `WordFilter.py` (lines 195-198):
`re.sub(r'[^a-zA-Z\s]', '', text).lower().split()`.  The regex deletes every
character that is neither alphabetic nor whitespace. -/
def clean_text (text : String) : List String :=
  pySplit (String.mk ((text.data.filter
      (fun c => pyIsAlpha c || pyIsSpace c)).map pyLower))

/-- Batches produced by `retrieve_chunks_in_batches` (lines 168-176):
`LIMIT batchSize OFFSET k*batchSize` over the rows in id order.  Structural
fuel (the list length) keeps the definition kernel-reducible. -/
def toBatchesAux (bs : Nat) : Nat → List α → List (List α)
  | 0, _ => []
  | _, [] => []
  | fuel + 1, l@(_ :: _) => l.take bs :: toBatchesAux bs fuel (l.drop bs)

/-- All batches of size `bs` (the Python loop needs `bs > 0` to terminate;
`batch_size` defaults to 1000). -/
def toBatches (bs : Nat) (l : List α) : List (List α) :=
  if bs = 0 then [] else toBatchesAux bs l.length l

/-- The stream of tokens counted by `process_chunks_in_batches`
(lines 204-209): each batch is boundary-merged, then each merged chunk is
cleaned, and the words are tallied in encounter order.  `none` when
`merge_split_words` raised on some batch. -/
def process_chunks_tokens (batchSize : Nat) (rows : List String) :
    Option (List String) :=
  match (toBatches batchSize rows).mapM merge_split_words with
  | none => none
  | some merged => some (merged.flatten.flatMap clean_text)

/-- The in-memory `word_frequencies` map: the count of a word is its number of
occurrences in the token stream. -/
def word_frequencies_of (tokens : List String) (w : String) : Nat :=
  tokens.count w

/-- A row of the `pdf_chunks` table (the AUTOINCREMENT id is the row's
position in the list: rows are kept in insertion order, which is the order
`ORDER BY id` returns them). -/
structure ChunkRow where
  file_name : String
  chunk_index : Nat
  chunk_text : String
deriving DecidableEq, Repr

/-- The SQLite database: each table is `none` when absent, `some rows`
otherwise.  `word_frequencies` rows are (word, frequency) with `word` the
primary key. -/
structure DbState where
  pdf_chunks : Option (List ChunkRow)
  word_frequencies : Option (List (String × Int))
deriving DecidableEq, Repr

/-- `CREATE TABLE IF NOT EXISTS`: creates an empty table only when absent. -/
def createIfAbsent (t : Option (List α)) : Option (List α) :=
  some (t.getD [])

/-- `setup_database(db_name, reset_db)` from `WordFilter.py` (lines 63-84):
optionally drops both tables, then creates each if it does not exist. -/
def setup_database (reset_db : Bool) (db : DbState) : DbState :=
  let db' := if reset_db then
      { pdf_chunks := none, word_frequencies := none } else db
  { pdf_chunks := createIfAbsent db'.pdf_chunks,
    word_frequencies := createIfAbsent db'.word_frequencies }

/-- `os.path.basename`: the part of the path after the last `/`. -/
def pyBasename (s : String) : String :=
  String.mk (s.data.reverse.takeWhile (fun c => c != '/')).reverse

/-- `store_chunks_in_db(file_name, chunks, db_name)` (lines 100-111): one
`INSERT` per chunk, `chunk_index` being the `enumerate` position. -/
def store_chunks_in_db (file_name : String) (chunks : List String)
    (table : List ChunkRow) : List ChunkRow :=
  table ++ chunks.enum.map (fun p => ⟨pyBasename file_name, p.1, p.2⟩)

/-- `extract_split_and_store_pdf(pdf_file, chunk_size, db_name)`
(lines 131-144): the external extractor and splitter are parameters (spec §1
treats them as external collaborators).  Empty extraction or an empty chunk
list skips the document without touching the table. -/
def extract_split_and_store_pdf (extract : String → String)
    (split : String → List String) (pdf_file : String)
    (table : List ChunkRow) : List ChunkRow :=
  let text := extract pdf_file
  if text = "" then table
  else
    let chunks := split text
    if chunks = [] then table
    else store_chunks_in_db pdf_file chunks table

/-- Ingestion of a list of documents (the thread pool of
`process_files_in_parallel`, modelled sequentially in submission order; each
document's effect on the table is independent of the others). -/
def ingest_files (extract : String → String) (split : String → List String)
    (files : List String) (table : List ChunkRow) : List ChunkRow :=
  files.foldl (fun t f => extract_split_and_store_pdf extract split f t) table

/-- Model of the SQLite statement at lines 215-218:
`INSERT INTO word_frequencies (word, frequency) VALUES (?, ?)
 ON CONFLICT(word) DO UPDATE SET frequency = frequency + ?`
— insert a fresh row with the delta, or add the delta to the existing row. -/
def upsert_word (table : List (String × Int)) (w : String) (d : Int) :
    List (String × Int) :=
  if table.any (fun p => p.1 == w) then
    table.map (fun p => if p.1 == w then (p.1, p.2 + d) else p)
  else table ++ [(w, d)]

/-- `upsertFrequencies` (spec §4.1): the loop at lines 214-218 issuing one
upsert per (word, delta) pair. -/
def upsertFrequencies (table : List (String × Int))
    (counts : List (String × Int)) : List (String × Int) :=
  counts.foldl (fun t p => upsert_word t p.1 p.2) table

/-- `SELECT frequency FROM word_frequencies WHERE word = ?`: the frequency
stored for a word (first row with that key). -/
def freqOf (table : List (String × Int)) (w : String) : Option Int :=
  (table.find? (fun p => p.1 == w)).map (fun p => p.2)

/-- An error raised by a store operation: `sqlite3.OperationalError` whose
message does or does not contain `'locked'`, or any other exception. -/
inductive StoreErr where
  | operational (locked : Bool)
  | other
deriving DecidableEq, Repr

/-- What `execute_with_retry` can raise: a propagated store error, or the
terminal `Exception("Failed to execute after ... retries")`. -/
inductive ExecErr where
  | store (e : StoreErr)
  | exhausted
deriving DecidableEq, Repr

/-- The loop body of `execute_with_retry` (lines 87-97), from attempt number
`attempt` with `fuel` attempts left.  `op i` is the outcome of the i-th
invocation of `func`; the second component of the result is the total time
spent in `time.sleep(delay)` calls. -/
def executeFrom (op : Nat → Except StoreErr α) (delay : Nat) :
    Nat → Nat → Except ExecErr α × Nat
  | _, 0 => (.error .exhausted, 0)
  | attempt, fuel + 1 =>
    match op attempt with
    | .ok v => (.ok v, 0)
    | .error (.operational true) =>
      let r := executeFrom op delay (attempt + 1) fuel
      (r.1, delay + r.2)
    | .error e => (.error (.store e), 0)

/-- `execute_with_retry(func, retries, delay)`: up to `retries` attempts
starting at attempt 0. -/
def execute_with_retry (op : Nat → Except StoreErr α) (delay retries : Nat) :
    Except ExecErr α × Nat :=
  executeFrom op delay 0 retries

/-! ### Helper lemmas -/

theorem takeWhile_append_all (p : Char → Bool) (l₁ l₂ : List Char)
    (h : ∀ c ∈ l₁, p c = true) :
    (l₁ ++ l₂).takeWhile p = l₁ ++ l₂.takeWhile p := by
  induction l₁ with
  | nil => rfl
  | cons a l ih =>
    simp only [List.cons_append, List.takeWhile_cons, h a (by simp)]
    simp [ih (fun c hc => h c (by simp [hc]))]

theorem dropWhile_append_all (p : Char → Bool) (l₁ l₂ : List Char)
    (h : ∀ c ∈ l₁, p c = true) :
    (l₁ ++ l₂).dropWhile p = l₂.dropWhile p := by
  induction l₁ with
  | nil => rfl
  | cons a l ih =>
    simp only [List.cons_append, List.dropWhile_cons, h a (by simp)]
    exact ih (fun c hc => h c (by simp [hc]))

theorem toNat_ofNat_small (n : Nat) (h : n < 55296) : (Char.ofNat n).toNat = n := by
  unfold Char.ofNat
  rw [dif_pos (Or.inl h)]
  rfl

theorem data_eq_nil_iff (s : String) : s.data = [] ↔ s = "" := by
  constructor
  · intro h; exact String.ext h
  · intro h; subst h; rfl

theorem mergeAux_cons (buf c : String) (rest : List String) :
    mergeAux buf (c :: rest) =
      match (buf ++ c).data.getLast? with
      | none => none
      | some last =>
        if pyIsSpace last || pyIsAlpha last then
          (mergeAux "" rest).map ((buf ++ c) :: ·)
        else
          (mergeAux (pyLastToken (buf ++ c)) rest).map
            (pyRsplitSpaceFirst (buf ++ c) :: ·) := rfl

theorem bufAfter_cons (buf c : String) (rest : List String) :
    bufAfter buf (c :: rest) =
      match (buf ++ c).data.getLast? with
      | none => none
      | some last =>
        if pyIsSpace last || pyIsAlpha last then bufAfter "" rest
        else bufAfter (pyLastToken (buf ++ c)) rest := rfl

/-! ### Claim theorems -/

/-- C6: tokenization first deletes every character outside a-z, A-Z and
whitespace (it does not replace it with a separator), then lowercases, then
splits on whitespace; consequently "don't" yields the single token "dont",
never the two tokens "don" and "t". -/
theorem clean_text_deletes_then_splits :
    (∀ s : String, clean_text s =
        pySplit (String.mk ((s.data.filter
          (fun c => pyIsAlpha c || pyIsSpace c)).map pyLower))) ∧
    clean_text "don't" = ["dont"] ∧
    clean_text "don't" ≠ ["don", "t"] :=
  ⟨fun _ => rfl, by decide, by decide⟩

/-- C1, counterexample: on the single batch ["hello wor", "ld this is"] both
chunks end in an alphabetic character, so `merge_split_words` emits them
unchanged and aggregation counts "wor" and "ld" separately; "world" does not
appear, contradicting the claim. -/
theorem boundary_claim_counterexample :
    process_chunks_tokens 1000 ["hello wor", "ld this is"] =
      some ["hello", "wor", "ld", "this", "is"] ∧
    word_frequencies_of ["hello", "wor", "ld", "this", "is"] "world" = 0 ∧
    word_frequencies_of ["hello", "wor", "ld", "this", "is"] "wor" = 1 ∧
    word_frequencies_of ["hello", "wor", "ld", "this", "is"] "ld" = 1 := by
  decide

/-- C1, amended: for the single batch ["hello wor", "ld this is"] the boundary
heuristic does not fire (both chunks end in an alphabetic character), so
aggregation produces the token stream hello, wor, ld, this, is — each with
count 1 — and "world" has count 0. -/
theorem boundary_merge_alphabetic_gap :
    process_chunks_tokens 1000 ["hello wor", "ld this is"] =
      some ["hello", "wor", "ld", "this", "is"] ∧
    word_frequencies_of ["hello", "wor", "ld", "this", "is"] "hello" = 1 ∧
    word_frequencies_of ["hello", "wor", "ld", "this", "is"] "wor" = 1 ∧
    word_frequencies_of ["hello", "wor", "ld", "this", "is"] "ld" = 1 ∧
    word_frequencies_of ["hello", "wor", "ld", "this", "is"] "this" = 1 ∧
    word_frequencies_of ["hello", "wor", "ld", "this", "is"] "is" = 1 ∧
    word_frequencies_of ["hello", "wor", "ld", "this", "is"] "world" = 0 := by
  decide

/-- C8: `store_chunks_in_db` appends one row per chunk, leaves the existing
rows untouched, and gives the appended rows the ordinals 0, 1, ...,
chunks.length - 1 (dense and gap-free) in argument order, with the matching
chunk texts. -/
theorem store_chunks_ordinals (file_name : String) (chunks : List String)
    (table : List ChunkRow) :
    ((store_chunks_in_db file_name chunks table).drop table.length).map
        ChunkRow.chunk_index = List.range chunks.length ∧
    ((store_chunks_in_db file_name chunks table).drop table.length).map
        ChunkRow.chunk_text = chunks ∧
    (store_chunks_in_db file_name chunks table).take table.length = table := by
  refine ⟨?_, ?_, ?_⟩
  · rw [store_chunks_in_db, List.drop_left, List.map_map]
    have : (ChunkRow.chunk_index ∘ fun p : Nat × String =>
        ChunkRow.mk (pyBasename file_name) p.1 p.2) = Prod.fst := rfl
    rw [this, List.enum_map_fst]
  · rw [store_chunks_in_db, List.drop_left, List.map_map]
    have : (ChunkRow.chunk_text ∘ fun p : Nat × String =>
        ChunkRow.mk (pyBasename file_name) p.1 p.2) = Prod.snd := rfl
    rw [this, List.enum_map_snd]
  · rw [store_chunks_in_db, List.take_left]

theorem pyLastToken_ne_empty (x : String) (last : Char)
    (h : x.data.getLast? = some last) (hs : pyIsSpace last = false) :
    pyLastToken x ≠ "" := by
  have hrev : x.data.reverse.head? = some last := by
    rw [List.head?_reverse, h]
  obtain ⟨t, ht⟩ : ∃ t, x.data.reverse = last :: t := by
    cases hx : x.data.reverse with
    | nil => rw [hx] at hrev; simp at hrev
    | cons a t =>
      rw [hx] at hrev
      simp only [List.head?_cons, Option.some.injEq] at hrev
      subst hrev
      exact ⟨t, rfl⟩
  intro hcontra
  have : (pyLastToken x).data = [] := by rw [hcontra]
  rw [pyLastToken] at this
  simp only [ht, List.takeWhile_cons, hs] at this
  simp at this

theorem rsplit_reconstruct (x : String) (A B : List Char)
    (hx : x.data = A ++ ' ' :: B) (hB : ∀ c ∈ B, pyIsSpace c = false) :
    pyRsplitSpaceFirst x = String.mk A ∧ pyLastToken x = String.mk B ∧
    pyRsplitSpaceFirst x ++ " " ++ pyLastToken x = x := by
  have hnotsp : ∀ c ∈ B.reverse, (!pyIsSpace c) = true := by
    intro c hc; rw [hB c (List.mem_reverse.mp hc)]; rfl
  have hrev : x.data.reverse = B.reverse ++ ' ' :: A.reverse := by
    rw [hx]; simp
  have htok : pyLastToken x = String.mk B := by
    rw [pyLastToken, hrev, takeWhile_append_all _ _ _ hnotsp]
    simp only [List.takeWhile_cons]
    norm_num [pyIsSpace]
  have hne : ∀ c ∈ B.reverse, (c != ' ') = true := by
    intro c hc
    have := hB c (List.mem_reverse.mp hc)
    simp only [bne_iff_ne, ne_eq]
    intro hcsp; rw [hcsp] at this; simp [pyIsSpace] at this
  have hsplit : pyRsplitSpaceFirst x = String.mk A := by
    rw [pyRsplitSpaceFirst, if_pos]
    · rw [hrev, dropWhile_append_all _ _ _ hne]
      simp [List.dropWhile_cons]
    · rw [hx]; simp [List.contains]
  refine ⟨hsplit, htok, ?_⟩
  apply String.ext
  rw [String.data_append, String.data_append, hsplit, htok, hx]
  simp

/-- C2, counterexample: for x = "a b1" (last character a digit), reassembling
the single-element batch gives ["a", "b1"], but appending the fragment back
onto the truncated element gives "ab1", not x — the separating space is lost,
so the claimed reconstruction fails. -/
theorem reassemble_single_counterexample :
    merge_split_words ["a b1"] = some ["a", "b1"] ∧
    "a" ++ "b1" ≠ "a b1" := by decide

/-- C2, amended: for every non-empty x, if the last character of x is
whitespace or alphabetic then reassembling [x] returns [x]; otherwise it
returns [x truncated at (and excluding) its last space — x unchanged when it
contains no space] followed by the trailing whitespace-delimited token as a
final standalone fragment, and rejoining the truncated element and the
fragment with a single space reconstructs x whenever the segment after the
last space contains no further whitespace. -/
theorem reassemble_single_spec (x : String) (_hx : x ≠ "") :
    (∀ last, x.data.getLast? = some last →
      (pyIsSpace last || pyIsAlpha last) = true →
      merge_split_words [x] = some [x]) ∧
    (∀ last, x.data.getLast? = some last →
      (pyIsSpace last || pyIsAlpha last) = false →
      merge_split_words [x] = some [pyRsplitSpaceFirst x, pyLastToken x] ∧
      (∀ A B, x.data = A ++ ' ' :: B → (∀ c ∈ B, pyIsSpace c = false) →
        pyRsplitSpaceFirst x ++ " " ++ pyLastToken x = x)) := by
  constructor
  · intro last hlast hcond
    rw [merge_split_words, mergeAux_cons, String.empty_append, hlast]
    simp [hcond, mergeAux]
  · intro last hlast hcond
    constructor
    · have hsp : pyIsSpace last = false := by
        cases h : pyIsSpace last with
        | false => rfl
        | true => rw [h] at hcond; simp at hcond
      rw [merge_split_words, mergeAux_cons, String.empty_append, hlast]
      simp only [hcond, Bool.false_eq_true, if_false, mergeAux,
        pyLastToken_ne_empty x last hlast hsp, if_neg, Option.map_some]
      rfl
    · intro A B hAB hB
      exact (rsplit_reconstruct x A B hAB hB).2.2

/-- C2, witness: x = "hello wor," ends in a comma, so the batch is split into
["hello", "wor,"] and a single space rejoins the two pieces into x. -/
theorem reassemble_single_spec_witness :
    merge_split_words ["hello wor,"] = some ["hello", "wor,"] ∧
    pyRsplitSpaceFirst "hello wor," ++ " " ++ pyLastToken "hello wor," =
      "hello wor," := by
  have h := (reassemble_single_spec "hello wor," (by decide)).2 ','
    (by decide) (by decide)
  exact ⟨h.1.trans (by decide),
    h.2 "hello".data "wor,".data (by decide) (by decide)⟩

theorem mergeAux_isSome (l : List String) : ∀ buf : String,
    (∀ c ∈ l, c ≠ "") → (mergeAux buf l).isSome = true := by
  induction l with
  | nil => intro buf _; simp [mergeAux]
  | cons c rest ih =>
    intro buf h
    have hc : c ≠ "" := h c (by simp)
    have hdata : (buf ++ c).data ≠ [] := by
      rw [String.data_append]
      intro he
      exact hc ((data_eq_nil_iff c).mp (List.append_eq_nil.mp he).2)
    obtain ⟨last, hlast⟩ : ∃ last, (buf ++ c).data.getLast? = some last := by
      cases hh : (buf ++ c).data.getLast? with
      | none => exact absurd (List.getLast?_eq_none_iff.mp hh) hdata
      | some a => exact ⟨a, rfl⟩
    have hrest : ∀ d ∈ rest, d ≠ "" := fun d hd => h d (by simp [hd])
    rw [mergeAux_cons]
    simp only [hlast]
    split <;> simp [ih _ hrest]

theorem mergeAux_crashes (post : List String) : ∀ (pre : List String)
    (buf : String), bufAfter buf pre = some "" →
    mergeAux buf (pre ++ "" :: post) = none := by
  intro pre
  induction pre with
  | nil =>
    intro buf hb
    simp only [bufAfter, Option.some.injEq] at hb
    subst hb
    rw [List.nil_append, mergeAux_cons]
    have : (("" : String) ++ "").data = [] := by rw [String.data_append]; rfl
    rw [this]
    rfl
  | cons c pre' ih =>
    intro buf hb
    rw [bufAfter_cons] at hb
    rw [List.cons_append, mergeAux_cons]
    cases hh : (buf ++ c).data.getLast? with
    | none => rfl
    | some last =>
      rw [hh] at hb
      cases hsp : pyIsSpace last || pyIsAlpha last with
      | true =>
        simp only [hsp, if_true] at hb ⊢
        simp [ih _ hb]
      | false =>
        simp only [hsp, Bool.false_eq_true, if_false] at hb ⊢
        simp [ih _ hb]

/-- C9: reassembly requires every chunk in the batch to be non-empty.  When a
batch contains an empty chunk at a position reached with an empty carried
buffer, `merge_split_words` fails (Python raises indexing `chunk[-1]`); when
every chunk is non-empty, the failure branch is unreachable and a merged list
is always produced. -/
theorem merge_requires_nonempty_chunks (chunks : List String) :
    ((∀ c ∈ chunks, c ≠ "") → (merge_split_words chunks).isSome = true) ∧
    (∀ pre post, chunks = pre ++ "" :: post → bufAfter "" pre = some "" →
      merge_split_words chunks = none) := by
  constructor
  · intro h
    exact mergeAux_isSome chunks "" h
  · intro pre post hchunks hbuf
    rw [merge_split_words, hchunks]
    exact mergeAux_crashes post pre "" hbuf

/-- C9, witness: ["abc", ""] reaches the empty chunk with an empty buffer and
fails, while the all-non-empty batch ["ab", "cd"] succeeds. -/
theorem merge_requires_nonempty_chunks_witness :
    merge_split_words ["abc", ""] = none ∧
    (merge_split_words ["ab", "cd"]).isSome = true := by
  constructor
  · exact (merge_requires_nonempty_chunks ["abc", ""]).2 ["abc"] [] rfl
      (by decide)
  · exact (merge_requires_nonempty_chunks ["ab", "cd"]).1 (by decide)

theorem pyLower_of_space (c : Char) (h : pyIsSpace c = true) : pyLower c = c := by
  simp only [pyIsSpace, Bool.or_eq_true, decide_eq_true_eq] at h
  rcases h with ((((h | h) | h) | h) | h) | h <;> subst h <;> decide

theorem pyLower_of_alpha (c : Char) (h : pyIsAlpha c = true) :
    'a' ≤ pyLower c ∧ pyLower c ≤ 'z' := by
  simp only [pyIsAlpha, Bool.or_eq_true, Bool.and_eq_true, decide_eq_true_eq] at h
  rcases h with ⟨h1, h2⟩ | ⟨h1, h2⟩
  · rw [pyLower, if_neg]
    · exact ⟨h1, h2⟩
    · simp only [Bool.and_eq_true, decide_eq_true_eq, not_and]
      intro _
      have hn1 : (97 : Nat) ≤ c.toNat := h1
      show ¬ c.toNat ≤ 90
      omega
  · have hn1 : (65 : Nat) ≤ c.toNat := h1
    have hn2 : c.toNat ≤ 90 := h2
    rw [pyLower, if_pos]
    · have hv : (Char.ofNat (c.toNat + 32)).toNat = c.toNat + 32 :=
        toNat_ofNat_small _ (by omega)
      constructor
      · show (97 : Nat) ≤ (Char.ofNat (c.toNat + 32)).toNat
        rw [hv]; omega
      · show (Char.ofNat (c.toNat + 32)).toNat ≤ 122
        rw [hv]; omega
    · simp only [Bool.and_eq_true, decide_eq_true_eq]
      exact ⟨h1, h2⟩

theorem pySplitAux_sound (P : Char → Prop) :
    ∀ (l acc : List Char), (∀ c ∈ acc, P c) →
      (∀ c ∈ l, pyIsSpace c = true ∨ P c) →
      ∀ w ∈ pySplitAux acc l, w.data ≠ [] ∧ ∀ c ∈ w.data, P c := by
  intro l
  induction l with
  | nil =>
    intro acc hacc _ w hw
    simp only [pySplitAux] at hw
    split at hw
    · simp at hw
    · next hne =>
      simp only [List.mem_singleton] at hw
      subst hw
      refine ⟨?_, ?_⟩
      · show acc.reverse ≠ []
        simpa using hne
      · intro c hc
        exact hacc c (List.mem_reverse.mp hc)
  | cons a l ih =>
    intro acc hacc hl w hw
    simp only [pySplitAux] at hw
    have hl' : ∀ c ∈ l, pyIsSpace c = true ∨ P c := fun c hc => hl c (by simp [hc])
    by_cases hsp : pyIsSpace a = true
    · rw [if_pos hsp] at hw
      by_cases hacc0 : acc = []
      · rw [if_pos hacc0] at hw
        exact ih [] (by simp) hl' w hw
      · rw [if_neg hacc0] at hw
        rcases List.mem_cons.mp hw with hw | hw
        · subst hw
          refine ⟨?_, ?_⟩
          · show acc.reverse ≠ []
            simpa using hacc0
          · intro c hc
            exact hacc c (List.mem_reverse.mp hc)
        · exact ih [] (by simp) hl' w hw
    · rw [if_neg hsp] at hw
      have hPa : P a := by
        rcases hl a (by simp) with h | h
        · exact absurd h hsp
        · exact h
      refine ih (a :: acc) ?_ hl' w hw
      intro c hc
      rcases List.mem_cons.mp hc with rfl | hc
      · exact hPa
      · exact hacc c hc

theorem clean_text_sound (s : String) :
    ∀ w ∈ clean_text s, w ≠ "" ∧ ∀ c ∈ w.data, 'a' ≤ c ∧ c ≤ 'z' := by
  intro w hw
  have hchars : ∀ c ∈ (s.data.filter (fun c => pyIsAlpha c || pyIsSpace c)).map pyLower,
      pyIsSpace c = true ∨ ('a' ≤ c ∧ c ≤ 'z') := by
    intro c hc
    rcases List.mem_map.mp hc with ⟨c', hc', rfl⟩
    have hkeep := List.of_mem_filter hc'
    rcases (by simpa using hkeep : pyIsAlpha c' = true ∨ pyIsSpace c' = true)
      with halpha | hspace
    · exact Or.inr (pyLower_of_alpha c' halpha)
    · exact Or.inl (by rw [pyLower_of_space c' hspace]; exact hspace)
  have h := pySplitAux_sound (fun c => 'a' ≤ c ∧ c ≤ 'z')
    ((s.data.filter (fun c => pyIsAlpha c || pyIsSpace c)).map pyLower) []
    (by simp) hchars w hw
  exact ⟨fun hcontra => h.1 (by rw [hcontra]), h.2⟩

/-- C10: whenever aggregation succeeds, every key of the produced
word-frequency map is a non-empty string of lowercase a-z characters and its
count is at least 1 — for every possible content of the chunk table. -/
theorem aggregation_keys_invariant (batchSize : Nat) (rows : List String)
    (tokens : List String)
    (h : process_chunks_tokens batchSize rows = some tokens) :
    ∀ w ∈ tokens, w ≠ "" ∧ (∀ c ∈ w.data, 'a' ≤ c ∧ c ≤ 'z') ∧
      1 ≤ word_frequencies_of tokens w := by
  intro w hw
  have hsrc : ∃ s, w ∈ clean_text s := by
    rcases hm : (toBatches batchSize rows).mapM merge_split_words with _ | merged
    · simp only [process_chunks_tokens, hm] at h
      exact Option.noConfusion h
    · simp only [process_chunks_tokens, hm, Option.some.injEq] at h
      have hw' := hw
      rw [← h] at hw'
      rcases List.mem_flatMap.mp hw' with ⟨l, _, hwl⟩
      exact ⟨l, hwl⟩
  obtain ⟨s, hws⟩ := hsrc
  obtain ⟨hne, hchars⟩ := clean_text_sound s w hws
  exact ⟨hne, hchars, List.count_pos_iff.mpr hw⟩

/-- C10, witness: the single row "Hi there!" aggregates to tokens
["hi", "there"]; the key "hi" is non-empty, lowercase alphabetic, and has a
count of at least 1. -/
theorem aggregation_keys_invariant_witness :
    "hi" ≠ "" ∧ (∀ c ∈ "hi".data, 'a' ≤ c ∧ c ≤ 'z') ∧
      1 ≤ word_frequencies_of ["hi", "there"] "hi" :=
  aggregation_keys_invariant 1000 ["Hi there!"] ["hi", "there"]
    (by decide) "hi" (by decide)

theorem executeFrom_locked_shift {α : Type} (op : Nat → Except StoreErr α)
    (delay : Nat) : ∀ (k a rest : Nat),
    (∀ i, i < k → op (a + i) = .error (.operational true)) →
    executeFrom op delay a (k + rest) =
      ((executeFrom op delay (a + k) rest).1,
        k * delay + (executeFrom op delay (a + k) rest).2) := by
  intro k
  induction k with
  | zero => intro a rest _; simp
  | succ n ih =>
    intro a rest h
    have h0 : op a = .error (.operational true) := by
      have := h 0 (by omega)
      simpa using this
    have hsucc : n + 1 + rest = (n + rest) + 1 := by omega
    rw [hsucc]
    simp only [executeFrom, h0]
    have ih' := ih (a + 1) rest (fun i hi => by
      have := h (i + 1) (by omega)
      rwa [show a + (i + 1) = a + 1 + i by omega] at this)
    rw [ih', show a + 1 + n = a + (n + 1) by omega]
    refine Prod.ext rfl ?_
    simp only
    ring

/-- C3: a locked failure is retried (after one fixed delay per retry) up to
the attempt cap; a non-locked failure propagates immediately, at the attempt
where it occurs; exhausting all attempts on locked failures raises the
terminal `exhausted` failure, which is distinct from every propagated store
error. -/
theorem execute_with_retry_spec {α : Type} (op : Nat → Except StoreErr α)
    (delay retries : Nat) :
    ((∀ i, i < retries → op i = .error (.operational true)) →
      execute_with_retry op delay retries =
        (.error .exhausted, retries * delay)) ∧
    (∀ k, k < retries →
      (∀ i, i < k → op i = .error (.operational true)) →
      (∀ e, e ≠ StoreErr.operational true → op k = .error e →
        execute_with_retry op delay retries =
          (.error (.store e), k * delay)) ∧
      (∀ v, op k = .ok v →
        execute_with_retry op delay retries = (.ok v, k * delay))) ∧
    (∀ e : StoreErr, ExecErr.exhausted ≠ ExecErr.store e) := by
  refine ⟨?_, ?_, fun e h => ExecErr.noConfusion h⟩
  · intro h
    have hs := executeFrom_locked_shift op delay retries 0 0
      (fun i hi => by simpa using h i hi)
    rw [Nat.add_zero] at hs
    rw [execute_with_retry, hs]
    simp [executeFrom]
  · intro k hk hlock
    have hs := executeFrom_locked_shift op delay k 0 (retries - k)
      (fun i hi => by simpa using hlock i hi)
    rw [show k + (retries - k) = retries by omega] at hs
    obtain ⟨r', hr'⟩ : ∃ r', retries - k = r' + 1 :=
      ⟨retries - k - 1, by omega⟩
    rw [hr'] at hs
    simp only [Nat.zero_add] at hs
    constructor
    · intro e hne he
      rcases e with b | _
      · cases b with
        | true => exact absurd rfl hne
        | false =>
          rw [execute_with_retry, hs]
          simp [executeFrom, he]
      · rw [execute_with_retry, hs]
        simp [executeFrom, he]
    · intro v hv
      rw [execute_with_retry, hs]
      simp [executeFrom, hv]

/-- C3, witness: attempt 0 fails locked, attempt 1 fails with a non-locked
error; with 5 attempts and delay 10 the executor propagates the non-locked
error after exactly one delay. -/
theorem execute_with_retry_spec_witness :
    execute_with_retry
        (fun i => if i = 0 then Except.error (StoreErr.operational true)
          else (Except.error StoreErr.other : Except StoreErr Nat)) 10 5 =
      (Except.error (ExecErr.store StoreErr.other), 10) := by
  have h := ((execute_with_retry_spec
      (fun i => if i = 0 then Except.error (StoreErr.operational true)
        else (Except.error StoreErr.other : Except StoreErr Nat)) 10 5).2.1
      1 (by omega)
      (fun i hi => by
        have hi0 : i = 0 := by omega
        subst hi0
        rfl)).1 StoreErr.other (by decide) rfl
  simpa using h

theorem freqOf_append_not_found (t : List (String × Int)) (w : String)
    (d : Int) (hf : t.find? (fun p => p.1 == w) = none) :
    freqOf (t ++ [(w, d)]) w = some d := by
  induction t with
  | nil => simp [freqOf, List.find?_cons]
  | cons q t ih =>
    cases hq : q.1 == w with
    | true =>
      rw [@List.find?_cons_of_pos _ (fun p => p.1 == w) q t hq] at hf
      exact Option.noConfusion hf
    | false =>
      rw [@List.find?_cons_of_neg _ (fun p => p.1 == w) q t (by simp [hq])] at hf
      rw [List.cons_append, freqOf,
        @List.find?_cons_of_neg _ (fun p => p.1 == w) q _ (by simp [hq])]
      exact ih hf

theorem freqOf_map_update (w : String) (d : Int) :
    ∀ (t : List (String × Int)) (n : Int), freqOf t w = some n →
    freqOf (t.map (fun p => if p.1 == w then (p.1, p.2 + d) else p)) w =
      some (n + d) := by
  intro t
  induction t with
  | nil => intro n h; simp [freqOf] at h
  | cons q t ih =>
    intro n h
    cases hq : q.1 == w with
    | true =>
      rw [freqOf, @List.find?_cons_of_pos _ (fun p => p.1 == w) q t hq,
        Option.map_some'] at h
      rw [List.map_cons, if_pos hq, freqOf,
        @List.find?_cons_of_pos _ (fun p => p.1 == w) (q.1, q.2 + d) _ hq,
        Option.map_some']
      rw [Option.some.injEq] at h ⊢
      rw [← h]
    | false =>
      rw [freqOf, @List.find?_cons_of_neg _ (fun p => p.1 == w) q t
        (by simp [hq])] at h
      rw [List.map_cons, if_neg (by simp [hq]), freqOf,
        @List.find?_cons_of_neg _ (fun p => p.1 == w) q _ (by simp [hq])]
      exact ih n h

/-- C4: upserting a word with no existing row stores the delta as the count;
upserting a word with an existing row adds the delta to the stored count; in
particular upserting cat ↦ 3 and then, separately, cat ↦ 2 leaves a stored
count of 5, not 2. -/
theorem upsertFrequencies_accumulates (t : List (String × Int)) (w : String)
    (d : Int) :
    (freqOf t w = none → freqOf (upsertFrequencies t [(w, d)]) w = some d) ∧
    (∀ n, freqOf t w = some n →
      freqOf (upsertFrequencies t [(w, d)]) w = some (n + d)) ∧
    freqOf (upsertFrequencies (upsertFrequencies [] [("cat", 3)])
      [("cat", 2)]) "cat" = some 5 := by
  have hone : upsertFrequencies t [(w, d)] = upsert_word t w d := rfl
  refine ⟨?_, ?_, by decide⟩
  · intro h
    have hf : t.find? (fun p => p.1 == w) = none := by
      cases hfind : t.find? (fun p => p.1 == w) with
      | none => rfl
      | some q => rw [freqOf, hfind, Option.map_some'] at h; exact Option.noConfusion h
    rw [hone, upsert_word, if_neg]
    · exact freqOf_append_not_found t w d hf
    · intro ha
      obtain ⟨p, hp, hpred⟩ := List.any_eq_true.mp ha
      have := List.find?_eq_none.mp hf p hp
      exact this hpred
  · intro n h
    obtain ⟨q, hfind⟩ : ∃ q, t.find? (fun p => p.1 == w) = some q := by
      cases hfind : t.find? (fun p => p.1 == w) with
      | none => rw [freqOf, hfind] at h; exact Option.noConfusion h
      | some q => exact ⟨q, rfl⟩
    rw [hone, upsert_word, if_pos]
    · exact freqOf_map_update w d t n h
    · exact List.any_eq_true.mpr
        ⟨q, @List.mem_of_find?_eq_some _ (fun p => p.1 == w) q t hfind,
          @List.find?_some _ (fun p => p.1 == w) q t hfind⟩

/-- C4, witness: applied to an existing row cat ↦ 3 with delta 2, giving 5;
and to an empty table with delta 3, giving 3. -/
theorem upsertFrequencies_accumulates_witness :
    freqOf (upsertFrequencies [("cat", 3)] [("cat", 2)]) "cat" = some 5 ∧
    freqOf (upsertFrequencies [] [("cat", 3)]) "cat" = some 3 := by
  constructor
  · have h := (upsertFrequencies_accumulates [("cat", 3)] "cat" 2).2.1 3
      (by decide)
    simpa using h
  · exact (upsertFrequencies_accumulates [] "cat" 3).1 (by decide)

/-- C7: resetting with dropExisting = true destroys and recreates both
tables, leaving both present and empty; resetting with dropExisting = false
creates a table only when absent and leaves existing rows untouched. -/
theorem setup_database_spec (db : DbState) :
    setup_database true db =
      { pdf_chunks := some [], word_frequencies := some [] } ∧
    (∀ r, db.pdf_chunks = some r →
      (setup_database false db).pdf_chunks = some r) ∧
    (db.pdf_chunks = none → (setup_database false db).pdf_chunks = some []) ∧
    (∀ r, db.word_frequencies = some r →
      (setup_database false db).word_frequencies = some r) ∧
    (db.word_frequencies = none →
      (setup_database false db).word_frequencies = some []) := by
  refine ⟨rfl, ?_, ?_, ?_, ?_⟩
  · intro r h; simp [setup_database, createIfAbsent, h]
  · intro h; simp [setup_database, createIfAbsent, h]
  · intro r h; simp [setup_database, createIfAbsent, h]
  · intro h; simp [setup_database, createIfAbsent, h]

/-- C7, witness: a database with one leftover chunk row and no frequency
table: reset(true) empties both; reset(false) keeps the chunk row and
creates the missing frequency table. -/
theorem setup_database_spec_witness :
    setup_database true ⟨some [⟨"a.pdf", 0, "x"⟩], none⟩ =
      { pdf_chunks := some [], word_frequencies := some [] } ∧
    (setup_database false ⟨some [⟨"a.pdf", 0, "x"⟩], none⟩).pdf_chunks =
      some [⟨"a.pdf", 0, "x"⟩] ∧
    (setup_database false ⟨some [⟨"a.pdf", 0, "x"⟩], none⟩).word_frequencies =
      some [] := by
  have h := setup_database_spec ⟨some [⟨"a.pdf", 0, "x"⟩], none⟩
  exact ⟨h.1, h.2.1 _ rfl, h.2.2.2.2 rfl⟩

/-- C5: with document A extracting to "the cat sat", document B extracting to
the empty string, and a splitter producing a single chunk per document,
ingestion persists exactly one chunk row for A and none for B, and
aggregation produces exactly the tokens the, cat, sat — the map
{the ↦ 1, cat ↦ 1, sat ↦ 1}. -/
theorem end_to_end_two_documents :
    ingest_files
        (fun f => if f = "A.pdf" then "the cat sat" else "")
        (fun t => [t]) ["A.pdf", "B.pdf"] [] =
      [⟨"A.pdf", 0, "the cat sat"⟩] ∧
    process_chunks_tokens 1000 ["the cat sat"] = some ["the", "cat", "sat"] ∧
    word_frequencies_of ["the", "cat", "sat"] "the" = 1 ∧
    word_frequencies_of ["the", "cat", "sat"] "cat" = 1 ∧
    word_frequencies_of ["the", "cat", "sat"] "sat" = 1 := by decide
